import Mathlib

set_option maxHeartbeats 1000000
set_option linter.unusedVariables false

/-!
Shallow embedding of `src/mmon_gcm/solving.py` (module `mmon_gcm.solving`).

Python floats are modelled as exact rationals, Python strings as `String`,
Python dicts as insertion-ordered association lists (`Dict`), and Python
exceptions as an `Except PyErr` monad.  Solver-owned operations (LP solving,
variable/constraint construction) are external collaborators of this module
and are modelled as oracle inputs where their values flow into the code
under verification.
-/

namespace MGCM

/-- Python exception kinds raised (explicitly or implicitly) by the embedded
code.  `valueError` is the only exception the module raises explicitly. -/
inductive PyErr where
  | keyError (key : String)
  | valueError (msg : String)
  | nameError (missing : String)
  | indexError
  | zeroDivisionError
  | optimizationError (msg : String)
  deriving DecidableEq, Repr

/-- A Python dict with `String` keys: an insertion-ordered association list
whose keys are unique by construction (writes update in place or append). -/
abbrev Dict (α : Type) := List (String × α)

/-- Dict lookup: value of the first (hence, in a well-formed dict, only)
binding of the key. -/
def dictGet {α : Type} : Dict α → String → Option α
  | [], _ => none
  | p :: rest, k => if p.1 = k then some p.2 else dictGet rest k

/-- Dict write, with Python dict semantics: an existing binding is updated in
place (insertion order kept), a new key is appended at the end. -/
def dictSet {α : Type} : Dict α → String → α → Dict α
  | [], k, v => [(k, v)]
  | p :: rest, k, v => if p.1 = k then (k, v) :: rest else p :: dictSet rest k v

/-- The keys of a dict, in insertion order. -/
def dictKeys {α : Type} (d : Dict α) : List String := d.map Prod.fst

/-- Decimal representation of a natural number (Python `str(i)` for `i >= 0`),
with explicit fuel so that the definition is structural and computable by
kernel reduction. -/
def natDecimalAux : Nat → Nat → List Char → List Char
  | 0, _, acc => acc
  | fuel + 1, n, acc =>
    if n < 10 then Nat.digitChar n :: acc
    else natDecimalAux fuel (n / 10) (Nat.digitChar (n % 10) :: acc)

/-- Python `str(n)` for a natural number `n`. -/
def natDecimal (n : Nat) : String := String.mk (natDecimalAux (n + 1) n [])

/-- Python substring test `pat in s` on character lists. -/
def containsAux (pat : List Char) : List Char → Bool
  | [] => pat.isPrefixOf []
  | c :: rest => pat.isPrefixOf (c :: rest) || containsAux pat rest

/-- Python `pat in s` for strings. -/
def strContains (s pat : String) : Bool := containsAux pat.data s.data

/-- The accounting-reaction test of `get_weightings`:
`"constraint" in id or "overall" in id or "sum" in id or id[:2] == "EX"`.
The slice comparison `id[:2] == "EX"` is exactly the two-character prefix
test (a string shorter than two characters never equals `"EX"`). -/
def isAccounting (rid : String) : Bool :=
  strContains rid "constraint" || strContains rid "overall" || strContains rid "sum" ||
    "EX".data.isPrefixOf rid.data

/-- A cobra reaction, restricted to the state this module reads and writes:
identifier, flux bounds, stoichiometric coefficients by metabolite, and the
textual encodings (`str(v)`) of the two solver flux variables, which are
owned by the external solver library. -/
structure Reaction where
  id : String
  lower_bound : Rat
  upper_bound : Rat
  coefficients : Dict Rat
  forward_variable : String
  reverse_variable : String
  deriving DecidableEq, Repr

/-- A cobra model, restricted to the state this module reads and writes.
`number_of_models` is the phase count returned by
`check_number_of_models` (see below).  `objective_name`,
`objective_coefficients` and `fixed_objective_constraints` mirror the
solver-side objective state that `add_pfba_Weighted` mutates. -/
structure Model where
  reactions : List Reaction
  number_of_models : Nat
  objective_name : String
  objective_coefficients : Dict Rat
  fixed_objective_constraints : Nat
  deriving DecidableEq, Repr

/-- Modelled from the spec: `check_number_of_models` lives in the module
`mmon_gcm.buildingediting`, which is not part of the sources; the spec says
it reports the phase count N of the multi-phase model (phases are indexed
1..N).  We carry that count as model state. -/
def check_number_of_models (m : Model) : Nat := m.number_of_models

/-- Embedding of `DictList.get_by_id` on a reaction list: first reaction with
the given identifier, `KeyError` when absent. -/
def listGetById : List Reaction → String → Except PyErr Reaction
  | [], k => .error (.keyError k)
  | r :: rest, k => if r.id = k then .ok r else listGetById rest k

/-- Embedding of `model.reactions.get_by_id`. -/
def get_by_id (m : Model) (k : String) : Except PyErr Reaction :=
  listGetById m.reactions k

/-- Embedding of `reaction.get_coefficient(met)`: `KeyError` when the
metabolite does not appear in the reaction. -/
def get_coefficient (r : Reaction) (met : String) : Except PyErr Rat :=
  match dictGet r.coefficients met with
  | some c => .ok c
  | none => .error (.keyError met)

/-- In-place mutation `rxn.lower_bound = v` where `rxn` was obtained by
`get_by_id`: updates the first reaction with the given identifier. -/
def setLowerBoundById : List Reaction → String → Rat → List Reaction
  | [], _, _ => []
  | r :: rest, k, v =>
    if r.id = k then { r with lower_bound := v } :: rest
    else r :: setLowerBoundById rest k v

/-- One iteration of the `rev2irrev` loop body, for the original reaction
with identifier `rid`, acting on the evolving copied reaction list:

    rxn = exp_model.reactions.get_by_id(RXN.id)
    if rxn.lower_bound < 0:
        rxn_reverse = rxn.copy()
        rxn_reverse.id = "%s_reverse" % (rxn.id)
        rxn.lower_bound = 0
        rxn_reverse.upper_bound = 0
        exp_model.add_reaction(rxn_reverse)

Note the copy is taken before `rxn.lower_bound = 0`, so the generated
reverse reaction keeps the original (negative) lower bound. -/
def rev2irrevStep (exp : List Reaction) (rid : String) : Except PyErr (List Reaction) := do
  let rxn ← listGetById exp rid
  if rxn.lower_bound < 0 then
    .ok (setLowerBoundById exp rid 0 ++
      [{ rxn with id := rxn.id ++ "_reverse", upper_bound := 0 }])
  else
    .ok exp

/-- Embedding of `rev2irrev`: iterate over the reactions of the input model
(in order), acting on a copy. -/
def rev2irrev (m : Model) : Except PyErr Model := do
  let rs ← m.reactions.foldlM (fun exp r => rev2irrevStep exp r.id) m.reactions
  .ok { m with reactions := rs }

/-- The inner loop body of `get_weightings`, for phase index `i` with phase
length `len`:

    if ("constraint" in reaction.id or "overall" in reaction.id
            or "sum" in reaction.id or reaction.id[:2] == "EX"):
        weightings[reaction.id] = 0
    elif reaction.id[-1] == str(i):
        weightings[reaction.id] = length_of_phase

Python raises `IndexError` on `reaction.id[-1]` when the identifier is the
empty string. -/
def reaction_step (i : Nat) (len : Rat) (w : Dict Rat) (r : Reaction) :
    Except PyErr (Dict Rat) :=
  if isAccounting r.id then .ok (dictSet w r.id 0)
  else
    match r.id.data.getLast? with
    | none => .error .indexError
    | some c => if [c] = (natDecimal i).data then .ok (dictSet w r.id len) else .ok w

/-- One phase iteration of `get_weightings`: look up the phase linker
reaction, derive the phase length `1 / (-coefficient)` (Python raises
`ZeroDivisionError` on a zero coefficient), then sweep all reactions. -/
def phase_step (m : Model) (i : Nat) (w : Dict Rat) : Except PyErr (Dict Rat) := do
  let linker ← get_by_id m ("SUCROSE_v_gc_Linker_" ++ natDecimal i)
  let c ← get_coefficient linker ("SUCROSE_v_gc_" ++ natDecimal i)
  if c = 0 then .error .zeroDivisionError
  else
    m.reactions.foldlM (reaction_step i (1 / (-c))) w

/-- Embedding of `get_weightings`: iterate the phase sweep for
`i = 1 .. check_number_of_models(model)`, starting from the empty dict. -/
def get_weightings (m : Model) : Except PyErr (Dict Rat) :=
  (List.range' 1 (check_number_of_models m)).foldlM (fun w i => phase_step m i w) []

/-- Python `s.split(sep)` for a single-character separator, on character
lists; the result list is always non-empty. -/
def splitOnChar (sep : Char) : List Char → List (List Char)
  | [] => [[]]
  | c :: rest =>
    match splitOnChar sep rest with
    | [] => [[]]
    | h :: t => if c = sep then [] :: h :: t else (c :: h) :: t

/-- The variable-token extraction in `add_pfba_Weighted`:

    w = str(v).split("=")[1].replace(" ", "").replace("<", "")

The index `[1]` raises `IndexError` when the textual encoding contains no
`=`; `replace` with an empty replacement on a single-character pattern
removes every occurrence of that character. -/
def varToken (v : String) : Except PyErr String :=
  match splitOnChar (Char.ofNat 61) v.data with
  | _ :: p :: _ =>
    .ok (String.mk ((p.filter (fun c => c ≠ Char.ofNat 32)).filter (fun c => c ≠ Char.ofNat 60)))
  | _ => .error .indexError

/-- The weight-resolution scan in `add_pfba_Weighted`: iterate the
weighting-dict entries in key order and return the value bound to the first
key occurring as a substring of the token (Python iterates
`weightings.keys()` and reads `weightings[rxn]`, which is that binding since
dict keys are unique). -/
def findWeight : Dict Rat → String → Option Rat
  | [], _ => none
  | p :: rest, w => if strContains w p.1 then some p.2 else findWeight rest w

/-- The caller-visible notice printed for a variable with no weighting
entry. -/
def unmappedNotice (w : String) : String :=
  "Weightings for reaction " ++ w ++ " not found, so assuming weighting = 1"

/-- The `weightings == None` default at the top of `add_pfba_Weighted`. -/
def resolveWeightings (m : Model) : Option (Dict Rat) → Except PyErr (Dict Rat)
  | none => get_weightings m
  | some w => .ok w

/-- The textual encodings of the forward and reverse flux variables of every
reaction, in the chained order produced by

    reaction_variables = ((rxn.forward_variable, rxn.reverse_variable)
                          for rxn in model.reactions)
    variables = chain(*reaction_variables) -/
def modelVariables (m : Model) : List String :=
  m.reactions.flatMap (fun r => [r.forward_variable, r.reverse_variable])

/-- The objective-coefficient loop of `add_pfba_Weighted`: build `tempDict`
keyed by variable, and collect the printed notices for unmapped variables. -/
def assignCoefficients (ws : Dict Rat) (acc : Dict Rat × List String) (v : String) :
    Except PyErr (Dict Rat × List String) := do
  let w ← varToken v
  match findWeight ws w with
  | some x => .ok (dictSet acc.1 v x, acc.2)
  | none => .ok (dictSet acc.1 v 1, acc.2 ++ [unmappedNotice w])

/-- Embedding of `model.objective.set_linear_coefficients(tempDict)`. -/
def setObjectiveCoefficients (m : Model) (coeffs : Dict Rat) : Model :=
  { m with objective_coefficients := coeffs }

/-- The optional auxiliary-objective installation at the top of
`add_pfba_Weighted`: `if objective is not None: model.objective =
objective`. -/
def addEffectiveModel (m : Model) (objective : Option String) : Model :=
  match objective with
  | some o => { m with objective_name := o }
  | none => m

/-- The solver-side objective mutations of `add_pfba_Weighted` before the
coefficient loop: `fix_objective_as_constraint` (whose observable effect
here is recorded by incrementing `fixed_objective_constraints`) followed by
installing the fresh minimisation objective named `"_pfba_objective"`. -/
def pfbaPrepared (m1 : Model) : Model :=
  { reactions := m1.reactions,
    number_of_models := m1.number_of_models,
    objective_name := "_pfba_objective",
    objective_coefficients := [],
    fixed_objective_constraints := m1.fixed_objective_constraints + 1 }

/-- Embedding of `add_pfba_Weighted`.  Returns the mutated model together
with the list of caller-visible notices printed during the run. -/
def add_pfba_Weighted (m : Model) (weightings : Option (Dict Rat))
    (objective : Option String) (fraction_of_optimum : Rat := 1) :
    Except PyErr (Model × List String) := do
  let ws ← resolveWeightings m weightings
  let m1 := addEffectiveModel m objective
  if m1.objective_name = "_pfba_objective" then
    .error (.valueError "The model already has a pFBA objective.")
  else do
    let tempDict ← (modelVariables (pfbaPrepared m1)).foldlM (assignCoefficients ws) ([], [])
    .ok (setObjectiveCoefficients (pfbaPrepared m1) tempDict.1, tempDict.2)

/-- Outcomes of the external solver calls made by
`flux_variability_analysis`: the baseline `slim_optimize` value (`none` when
the model is infeasible, in which case `slim_optimize(error_value=None,
message=...)` raises an `OptimizationError` with the given message), and the
per-reaction results of cobra `_fva_step` under the minimum and maximum
objective directions.  `_fva_step` returns the pair `(reaction_id, value)`;
the value is a deterministic function of the constrained model and the
reaction, so it is modelled as a function of the reaction identifier. -/
structure SolveOracle where
  objective_value : Option Rat
  fva_min : String → Rat
  fva_max : String → Rat

/-- Resolution of `reaction_list` at the top of
`flux_variability_analysis`: all model reactions when `None`, else
`get_by_any` lookups (which raise `KeyError` on an unknown identifier). -/
def resolveReactionIds (m : Model) : Option (List String) → Except PyErr (List String)
  | none => .ok (m.reactions.map (fun r => r.id))
  | some l => l.mapM (fun k => do let r ← get_by_id m k; .ok r.id)

/-- One row of the FVA result table: identifier, minimum, maximum.  The
table is initialised with zeros for every listed reaction. -/
def initFvaResult (ids : List String) : List (String × Rat × Rat) :=
  ids.map (fun k => (k, (0, 0)))

/-- Keyed cell write `fva_result.at[rxn_id, what] = value`; `which = false`
writes the minimum column, `which = true` the maximum column.  Reaction
identifiers delivered by the pool are always labels of the table. -/
def writeAt : List (String × Rat × Rat) → String → Bool → Rat → List (String × Rat × Rat)
  | [], _, _, _ => []
  | row :: rest, k, which, v =>
    if row.1 = k then
      (row.1, if which then (row.2.1, v) else (v, row.2.2)) :: rest
    else row :: writeAt rest k which v

/-- One direction pass of the FVA loop: fold the `(rxn_id, value)` results
over the table in arrival order.  With one process the arrival order is
`reaction_ids` itself; with a pool, `imap_unordered` delivers the results in
an arbitrary order. -/
def fvaPass (tbl : List (String × Rat × Rat)) (which : Bool) (order : List String)
    (f : String → Rat) : List (String × Rat × Rat) :=
  order.foldl (fun t k => writeAt t k which (f k)) tbl

/-- The caller-visible warning text for a low pFBA factor. -/
def lowPfbaFactorWarning : String := "The pfba_factor should be larger or equal to 1."

/-- Embedding of the module-level `flux_variability_analysis`.  Returns the
warnings emitted so far paired with the result or the raised exception.
`sched_min` and `sched_max` are the arrival orders of the pool results when
more than one process is used (they are permutations of the reaction
identifiers); with one effective process the code iterates `reaction_ids`
directly.  Two names referenced by the body are never defined or imported by
the module: `configuration` (used to default `processes`) and `add_pfba`
(used in the `pfba_factor` branch); evaluating either raises a
`NameError`. -/
def flux_variability_analysis (m : Model) (oracle : SolveOracle)
    (reaction_list : Option (List String)) (loopless : Bool)
    (fraction_of_optimum : Rat) (pfba_factor : Option Rat)
    (processes : Option Nat) (sched_min sched_max : List String) :
    List String × Except PyErr (List (String × Rat × Rat)) :=
  let _ := loopless
  let _ := fraction_of_optimum
  match resolveReactionIds m reaction_list with
  | .error e => ([], .error e)
  | .ok reaction_ids =>
    match processes with
    | none => ([], .error (.nameError "configuration"))
    | some procs =>
      let num_reactions := reaction_ids.length
      let procs := min procs num_reactions
      let fva_result := initFvaResult reaction_ids
      match oracle.objective_value with
      | none =>
        ([], .error (.optimizationError "There is no optimal solution for the chosen objective!"))
      | some _ =>
        -- the `fva_old_objective` variable and constraint are solver state
        match pfba_factor with
        | some factor =>
          let warnings := if factor < 1 then [lowPfbaFactorWarning] else []
          -- `add_pfba(model, fraction_of_optimum=0)` : the name `add_pfba`
          -- is not defined in the module, so Python raises a NameError here
          (warnings, .error (.nameError "add_pfba"))
        | none =>
          let order_min := if 1 < procs then sched_min else reaction_ids
          let order_max := if 1 < procs then sched_max else reaction_ids
          let t1 := fvaPass fva_result false order_min oracle.fva_min
          let t2 := fvaPass t1 true order_max oracle.fva_max
          ([], .ok t2)

/-- The `"_reverse"` suffix as a character list. -/
def revPat : List Char := "_reverse".data

/-- Python `s.replace("_reverse", "")`: remove every (left-to-right,
non-overlapping) occurrence of the pattern.  Structural with explicit fuel;
`stripReverse` supplies fuel equal to the string length, which is enough
since each step consumes at least one character. -/
def stripReverseAux : Nat → List Char → List Char
  | 0, s => s
  | _ + 1, [] => []
  | fuel + 1, c :: rest =>
    if revPat.isPrefixOf (c :: rest) then stripReverseAux fuel (rest.drop 7)
    else c :: stripReverseAux fuel rest

/-- Python `rxn.replace("_reverse", "")` on a reaction identifier. -/
def stripReverse (s : String) : String := String.mk (stripReverseAux s.data.length s.data)

/-- One iteration of the per-mode folding loop in `pFBA_FVA_run`
(lines 399-429; the `maximum` and `minimum` branches are textually
identical):

    if rxn.__contains__("_reverse"):
        rxn = rxn.replace("_reverse", "")
    if FVArxnSet.__contains__(rxn):
        continue
    FVArxnSet.add(rxn)
    if not fva[mode].keys().__contains__(rxn + "_reverse"):
        maxi = fva[mode][rxn]
    else:
        maxi = fva[mode][rxn] + fva[mode][rxn + "_reverse"]
    tempdict[rxn] = maxi

The lookup `fva[mode][rxn]` is by the stripped identifier and raises
`KeyError` when that identifier is not a key of the table. -/
def foldStep (fva : Dict Rat) (acc : List String × Dict Rat) (rxn0 : String) :
    Except PyErr (List String × Dict Rat) :=
  let rxn := if strContains rxn0 "_reverse" then stripReverse rxn0 else rxn0
  if acc.1.contains rxn then .ok acc
  else
    let seen := rxn :: acc.1
    match dictGet fva rxn with
    | none => .error (.keyError rxn)
    | some v =>
      match dictGet fva (rxn ++ "_reverse") with
      | none => .ok (seen, dictSet acc.2 rxn v)
      | some vrev => .ok (seen, dictSet acc.2 rxn (v + vrev))

/-- The per-mode Aggregator fold of `pFBA_FVA_run`: iterate the keys of one
FVA mode table in order, folding split forward/reverse pairs back to the
original identifiers. -/
def aggregatorFold (fva : Dict Rat) : Except PyErr (Dict Rat) := do
  let acc ← (dictKeys fva).foldlM (foldStep fva) ([], [])
  .ok acc.2

/-- One row of the combined solution table of `get_pfba_fva_solution`:
the pFBA flux and the (possibly missing) FVA minimum and maximum. -/
structure CombinedRow where
  fluxes : Rat
  minimum : Option Rat
  maximum : Option Rat
  deriving DecidableEq, Repr

/-- Embedding of `combined_df = pfba_df.join(fva_df)` (line 515).  Pandas
`DataFrame.join` defaults to `how="left"`: one output row per label of the
left (pFBA) index, in left order, with the FVA columns filled by index
lookup and left missing (NaN) when the label is absent from the FVA
table. -/
def dfJoinLeft (pfba : Dict Rat) (fvaMin fvaMax : Dict Rat) : List (String × CombinedRow) :=
  pfba.map (fun p => (p.1, ⟨p.2, dictGet fvaMin p.1, dictGet fvaMax p.1⟩))

/-- The result-shaping tail of `get_pfba_fva_solution` (lines 512-515),
taking the pipeline outputs as inputs: the pFBA flux column
(`pfba_solution.to_frame().loc[:, "fluxes":"fluxes"]`) and the two folded
FVA mode columns (`pd.DataFrame(fba_model.fva)`). -/
def get_pfba_fva_solution_table (pfba_fluxes : Dict Rat) (fva_min fva_max : Dict Rat) :
    List (String × CombinedRow) :=
  dfJoinLeft pfba_fluxes fva_min fva_max

/-! ## Shared lemmas about the monadic plumbing and the dict operations -/

theorem exceptBind_ok {ε α β : Type} (a : α) (f : α → Except ε β) :
    ((Except.ok a : Except ε α) >>= f) = f a := rfl

theorem exceptBind_error {ε α β : Type} (e : ε) (f : α → Except ε β) :
    ((Except.error e : Except ε α) >>= f) = .error e := rfl

theorem exceptPure_eq_ok {ε α : Type} (a : α) :
    (pure a : Except ε α) = .ok a := rfl

theorem dictGet_dictSet_self {α : Type} (d : Dict α) (k : String) (v : α) :
    dictGet (dictSet d k v) k = some v := by
  induction d with
  | nil => simp [dictGet, dictSet]
  | cons p rest ih =>
    by_cases hp : p.1 = k
    · simp [dictSet, if_pos hp, dictGet]
    · simp only [dictSet, if_neg hp, dictGet, if_neg hp, ih]

theorem dictGet_dictSet_ne {α : Type} (d : Dict α) (k k2 : String) (v : α)
    (h : k2 ≠ k) : dictGet (dictSet d k v) k2 = dictGet d k2 := by
  induction d with
  | nil => simp [dictGet, dictSet, if_neg (Ne.symm h)]
  | cons p rest ih =>
    by_cases hp : p.1 = k
    · have hp2 : ¬ p.1 = k2 := by rw [hp]; exact Ne.symm h
      simp only [dictSet, if_pos hp, dictGet, if_neg (Ne.symm h), if_neg hp2]
    · simp only [dictSet, if_neg hp, dictGet]
      by_cases hp2 : p.1 = k2
      · rw [if_pos hp2, if_pos hp2]
      · rw [if_neg hp2, if_neg hp2, ih]

theorem listGetById_ok {l : List Reaction} {k : String} {r : Reaction}
    (h : listGetById l k = .ok r) : r ∈ l ∧ r.id = k := by
  induction l with
  | nil => simp [listGetById] at h
  | cons a rest ih =>
    by_cases ha : a.id = k
    · simp only [listGetById, if_pos ha, Except.ok.injEq] at h
      subst h
      exact ⟨List.mem_cons_self a rest, ha⟩
    · simp only [listGetById, if_neg ha] at h
      rcases ih h with ⟨h1, h2⟩
      exact ⟨List.mem_cons_of_mem a h1, h2⟩

theorem listGetById_of_mem_nodup {l : List Reaction} {r : Reaction}
    (hn : (l.map Reaction.id).Nodup) (hr : r ∈ l) :
    listGetById l r.id = .ok r := by
  induction l with
  | nil => simp at hr
  | cons a rest ih =>
    simp only [List.map_cons, List.nodup_cons] at hn
    rcases List.mem_cons.mp hr with h | h
    · subst h
      simp [listGetById]
    · have hne : ¬ a.id = r.id := by
        intro he
        exact hn.1 (he ▸ List.mem_map_of_mem Reaction.id h)
      rw [listGetById, if_neg hne]
      exact ih hn.2 h

theorem listGetById_append_of_ok {l : List Reaction} {k : String} {r : Reaction}
    (t : List Reaction) (h : listGetById l k = .ok r) :
    listGetById (l ++ t) k = .ok r := by
  induction l with
  | nil => simp [listGetById] at h
  | cons a rest ih =>
    by_cases ha : a.id = k
    · simp only [listGetById, if_pos ha] at h ⊢
      exact h
    · simp only [listGetById, if_neg ha] at h
      simp only [List.cons_append, listGetById, if_neg ha]
      exact ih h

theorem listGetById_setLowerBoundById_ne {l : List Reaction} {k k2 : String} {v : Rat}
    (h : k2 ≠ k) : listGetById (setLowerBoundById l k v) k2 = listGetById l k2 := by
  induction l with
  | nil => simp [setLowerBoundById]
  | cons a rest ih =>
    by_cases ha : a.id = k
    · have hne : ¬ a.id = k2 := by rw [ha]; exact Ne.symm h
      simp only [setLowerBoundById, if_pos ha, listGetById, if_neg hne]
    · simp only [setLowerBoundById, if_neg ha, listGetById]
      by_cases ha2 : a.id = k2
      · rw [if_pos ha2, if_pos ha2]
      · rw [if_neg ha2, if_neg ha2, ih]

theorem mem_setLowerBoundById_of_ne {l : List Reaction} {k : String} {v : Rat}
    {x : Reaction} (hx : x ∈ l) (h : x.id ≠ k) : x ∈ setLowerBoundById l k v := by
  induction l with
  | nil => simp at hx
  | cons a rest ih =>
    by_cases ha : a.id = k
    · rcases List.mem_cons.mp hx with he | hm
      · exact absurd (he ▸ ha) h
      · rw [setLowerBoundById, if_pos ha]
        exact List.mem_cons_of_mem _ hm
    · rcases List.mem_cons.mp hx with he | hm
      · subst he
        rw [setLowerBoundById, if_neg ha]
        exact List.mem_cons_self _ _
      · rw [setLowerBoundById, if_neg ha]
        exact List.mem_cons_of_mem _ (ih hm)

theorem setLowerBoundById_mem_of_get {l : List Reaction} {k : String} {v : Rat}
    {r : Reaction} (h : listGetById l k = .ok r) :
    { r with lower_bound := v } ∈ setLowerBoundById l k v := by
  induction l with
  | nil => simp [listGetById] at h
  | cons a rest ih =>
    by_cases ha : a.id = k
    · simp only [listGetById, if_pos ha, Except.ok.injEq] at h
      subst h
      rw [setLowerBoundById, if_pos ha]
      exact List.mem_cons_self _ _
    · simp only [listGetById, if_neg ha] at h
      rw [setLowerBoundById, if_neg ha]
      exact List.mem_cons_of_mem _ (ih h)

/-! ## C1: the irreversibility splitter rev2irrev -/

theorem rev2irrevStep_of_neg {exp : List Reaction} {rid : String} {rxn : Reaction}
    (hget : listGetById exp rid = .ok rxn) (hlb : rxn.lower_bound < 0) :
    rev2irrevStep exp rid =
      .ok (setLowerBoundById exp rid 0 ++
        [{ rxn with id := rxn.id ++ "_reverse", upper_bound := 0 }]) := by
  unfold rev2irrevStep
  rw [hget, exceptBind_ok, if_pos hlb]

theorem rev2irrevStep_of_nonneg {exp : List Reaction} {rid : String} {rxn : Reaction}
    (hget : listGetById exp rid = .ok rxn) (hlb : ¬ rxn.lower_bound < 0) :
    rev2irrevStep exp rid = .ok exp := by
  unfold rev2irrevStep
  rw [hget, exceptBind_ok, if_neg hlb]

/-- Elements of the evolving reaction list survive the remaining loop
iterations of `rev2irrev` as long as no remaining original reaction shares
their identifier. -/
theorem mem_rev2irrev_fold {l : List Reaction} :
    ∀ {exp out : List Reaction} {x : Reaction},
      List.foldlM (fun e r => rev2irrevStep e r.id) exp l = .ok out →
      x ∈ exp → (∀ r ∈ l, r.id ≠ x.id) → x ∈ out := by
  induction l with
  | nil =>
    intro exp out x hfold hx _
    rw [List.foldlM_nil, exceptPure_eq_ok] at hfold
    cases hfold
    exact hx
  | cons h t ih =>
    intro exp out x hfold hx hne
    rw [List.foldlM_cons] at hfold
    cases hstep : rev2irrevStep exp h.id with
    | error e =>
      rw [hstep, exceptBind_error] at hfold
      cases hfold
    | ok e1 =>
      rw [hstep, exceptBind_ok] at hfold
      have hxe1 : x ∈ e1 := by
        unfold rev2irrevStep at hstep
        cases hget : listGetById exp h.id with
        | error e => rw [hget, exceptBind_error] at hstep; cases hstep
        | ok rxn =>
          rw [hget, exceptBind_ok] at hstep
          by_cases hlb : rxn.lower_bound < 0
          · rw [if_pos hlb] at hstep
            cases hstep
            exact List.mem_append_left _
              (mem_setLowerBoundById_of_ne hx (Ne.symm (hne h (List.mem_cons_self h t))))
          · rw [if_neg hlb] at hstep
            cases hstep
            exact hx
      exact ih hfold hxe1 (fun r hr => hne r (List.mem_cons_of_mem h hr))

/-- The main loop invariant of `rev2irrev`: processing the original
reactions `l` against an evolving copied list `exp` in which each of them is
still present unchanged produces, for every reversible original, the
lower-bound-zeroed original and the appended reverse copy (which keeps the
original negative lower bound), and leaves non-reversible originals
untouched. -/
theorem rev2irrev_fold_spec {l : List Reaction} :
    ∀ {exp : List Reaction},
      (l.map Reaction.id).Nodup →
      (∀ r ∈ l, listGetById exp r.id = .ok r) →
      (∀ r ∈ l, ∀ s ∈ l, s.id ≠ r.id ++ "_reverse") →
      ∃ out, List.foldlM (fun e r => rev2irrevStep e r.id) exp l = .ok out ∧
        ∀ r ∈ l,
          (r.lower_bound < 0 →
            { r with lower_bound := 0 } ∈ out ∧
            { r with id := r.id ++ "_reverse", upper_bound := 0 } ∈ out) ∧
          (¬ r.lower_bound < 0 → r ∈ out) := by
  induction l with
  | nil =>
    intro exp _ _ _
    exact ⟨exp, by rw [List.foldlM_nil, exceptPure_eq_ok], by simp⟩
  | cons h t ih =>
    intro exp hnodup hget hrev
    simp only [List.map_cons, List.nodup_cons] at hnodup
    have hgeth : listGetById exp h.id = .ok h := hget h (List.mem_cons_self h t)
    have hidne : ∀ r ∈ t, r.id ≠ h.id := by
      intro r hr he
      exact hnodup.1 (he ▸ List.mem_map_of_mem Reaction.id hr)
    have hrevt : ∀ r ∈ t, ∀ s ∈ t, s.id ≠ r.id ++ "_reverse" := by
      intro r hr s hs
      exact hrev r (List.mem_cons_of_mem h hr) s (List.mem_cons_of_mem h hs)
    by_cases hlb : h.lower_bound < 0
    · -- the reversible case: zero the lower bound and append the reverse copy
      have hstep := rev2irrevStep_of_neg hgeth hlb
      have hget1 : ∀ r ∈ t,
          listGetById (setLowerBoundById exp h.id 0 ++
            [{ h with id := h.id ++ "_reverse", upper_bound := 0 }]) r.id = .ok r := by
        intro r hr
        refine listGetById_append_of_ok _ ?_
        rw [listGetById_setLowerBoundById_ne (hidne r hr)]
        exact hget r (List.mem_cons_of_mem h hr)
      rcases ih hnodup.2 hget1 hrevt with ⟨out, hfold, hout⟩
      refine ⟨out, ?_, ?_⟩
      · rw [List.foldlM_cons, hstep, exceptBind_ok]
        exact hfold
      · intro r hr
        rcases List.mem_cons.mp hr with he | hm
        · subst he
          refine ⟨fun _ => ⟨?_, ?_⟩, fun hn => absurd hlb hn⟩
          · refine mem_rev2irrev_fold hfold ?_ hidne
            exact List.mem_append_left _ (setLowerBoundById_mem_of_get hgeth)
          · refine mem_rev2irrev_fold hfold (List.mem_append_right _ (by simp)) ?_
            intro s hs
            exact hrev r (List.mem_cons_self r t) s (List.mem_cons_of_mem r hs)
        · exact hout r hm
    · -- the non-reversible case: the list is unchanged
      have hstep := rev2irrevStep_of_nonneg hgeth hlb
      rcases ih hnodup.2 (fun r hr => hget r (List.mem_cons_of_mem h hr)) hrevt with
        ⟨out, hfold, hout⟩
      refine ⟨out, ?_, ?_⟩
      · rw [List.foldlM_cons, hstep, exceptBind_ok]
        exact hfold
      · intro r hr
        rcases List.mem_cons.mp hr with he | hm
        · subst he
          refine ⟨fun hc => absurd hc hlb, fun _ => ?_⟩
          exact mem_rev2irrev_fold hfold (listGetById_ok hgeth).1 hidne
        · exact hout r hm

/-- Input model of the C1 counterexample: a single reversible reaction with
bounds `(-5, 10)`. -/
def c1Model : Model :=
  { reactions := [⟨"R", -5, 10, [], "", ""⟩],
    number_of_models := 0, objective_name := "obj",
    objective_coefficients := [], fixed_objective_constraints := 0 }

/-- Output model actually produced by `rev2irrev` on `c1Model`. -/
def c1Out : Model :=
  { reactions := [⟨"R", 0, 10, [], "", ""⟩, ⟨"R_reverse", -5, 0, [], "", ""⟩],
    number_of_models := 0, objective_name := "obj",
    objective_coefficients := [], fixed_objective_constraints := 0 }

/-- C1 (counterexample): the claim states that the generated reverse
reaction has lower bound equal to the NEGATED original lower bound.  On the
concrete model with one reaction of bounds `(-5, 10)`, `rev2irrev` produces
a reverse reaction whose lower bound is `-5` (the original lower bound,
unchanged), not `-(-5) = 5`: the copy is taken before the original lower
bound is zeroed and the reverse lower bound is never negated. -/
theorem C1_counterexample :
    rev2irrev c1Model = .ok c1Out ∧
    c1Out.reactions.filter (fun r => r.id == "R_reverse") =
      [⟨"R_reverse", -5, 0, [], "", ""⟩] ∧
    (-5 : Rat) ≠ -(-5 : Rat) := by
  refine ⟨by rfl, by rfl, by norm_num⟩

/-- C1 (amended): for every input model (with pairwise distinct reaction
identifiers, none of which equals another identifier suffixed with
`"_reverse"`), `rev2irrev` returns a new model in which every reaction with
`lower_bound < 0` is split into a pair: the original reaction with its
lower bound forced to `0`, plus a generated reverse reaction whose
identifier is the original identifier suffixed with `"_reverse"`, whose
upper bound is `0` and whose lower bound equals the ORIGINAL (negative)
lower bound, all other fields inherited; reactions with
`lower_bound >= 0` are untouched. -/
theorem C1_rev2irrev_splits (m : Model)
    (hids : (m.reactions.map Reaction.id).Nodup)
    (hrev : ∀ r ∈ m.reactions, ∀ s ∈ m.reactions, s.id ≠ r.id ++ "_reverse") :
    ∃ m2, rev2irrev m = .ok m2 ∧
      ∀ r ∈ m.reactions,
        (r.lower_bound < 0 →
          { r with lower_bound := 0 } ∈ m2.reactions ∧
          { r with id := r.id ++ "_reverse", upper_bound := 0 } ∈ m2.reactions) ∧
        (0 ≤ r.lower_bound → r ∈ m2.reactions) := by
  have hget : ∀ r ∈ m.reactions, listGetById m.reactions r.id = .ok r :=
    fun r hr => listGetById_of_mem_nodup hids hr
  rcases rev2irrev_fold_spec hids hget hrev with ⟨out, hfold, hout⟩
  refine ⟨{ m with reactions := out }, ?_, ?_⟩
  · unfold rev2irrev
    rw [hfold, exceptBind_ok]
  · intro r hr
    rcases hout r hr with ⟨h1, h2⟩
    exact ⟨h1, fun h0 => h2 (not_lt.mpr h0)⟩

/-- Concrete model for the C1 witness: one reversible and one
non-reversible reaction. -/
def c1WitnessModel : Model :=
  { reactions := [⟨"R", -5, 10, [], "", ""⟩, ⟨"S", 0, 3, [], "", ""⟩],
    number_of_models := 0, objective_name := "obj",
    objective_coefficients := [], fixed_objective_constraints := 0 }

/-- Witness for C1 (amended) at a concrete two-reaction model. -/
theorem C1_rev2irrev_splits_witness :
    ((c1WitnessModel.reactions.map Reaction.id).Nodup ∧
      (∀ r ∈ c1WitnessModel.reactions, ∀ s ∈ c1WitnessModel.reactions,
        s.id ≠ r.id ++ "_reverse")) ∧
    (∃ m2, rev2irrev c1WitnessModel = .ok m2 ∧
      ∀ r ∈ c1WitnessModel.reactions,
        (r.lower_bound < 0 →
          { r with lower_bound := 0 } ∈ m2.reactions ∧
          { r with id := r.id ++ "_reverse", upper_bound := 0 } ∈ m2.reactions) ∧
        (0 ≤ r.lower_bound → r ∈ m2.reactions)) :=
  ⟨⟨by decide, by decide⟩,
    C1_rev2irrev_splits c1WitnessModel (by decide) (by decide)⟩

/-! ## C2 and C7: the weighted objective builder add_pfba_Weighted -/

/-- Marker for the one exception class the module raises explicitly
(`raise ValueError(...)`). -/
def PyErr.isValueError : PyErr → Bool
  | .valueError _ => true
  | _ => false

/-- A monadic fold only fails with errors its step function can produce. -/
theorem foldlM_error_kind {α β : Type} {f : β → α → Except PyErr β}
    (hf : ∀ b a e, f b a = .error e → e.isValueError = false) :
    ∀ {l : List α} {b : β} {e : PyErr},
      List.foldlM f b l = .error e → e.isValueError = false := by
  intro l
  induction l with
  | nil =>
    intro b e h
    rw [List.foldlM_nil, exceptPure_eq_ok] at h
    cases h
  | cons a t ih =>
    intro b e h
    rw [List.foldlM_cons] at h
    cases hstep : f b a with
    | error e2 =>
      rw [hstep, exceptBind_error] at h
      cases h
      exact hf b a _ hstep
    | ok b2 =>
      rw [hstep, exceptBind_ok] at h
      exact ih h

theorem listGetById_error {l : List Reaction} {k : String} {e : PyErr}
    (h : listGetById l k = .error e) : e = .keyError k := by
  induction l with
  | nil =>
    rw [listGetById] at h
    cases h
    rfl
  | cons a rest ih =>
    by_cases ha : a.id = k
    · rw [listGetById, if_pos ha] at h
      cases h
    · rw [listGetById, if_neg ha] at h
      exact ih h

theorem get_coefficient_error {r : Reaction} {met : String} {e : PyErr}
    (h : get_coefficient r met = .error e) : e = .keyError met := by
  unfold get_coefficient at h
  cases hg : dictGet r.coefficients met with
  | none => rw [hg] at h; cases h; rfl
  | some c => rw [hg] at h; cases h

theorem reaction_step_error {i : Nat} {len : Rat} {w : Dict Rat} {r : Reaction}
    {e : PyErr} (h : reaction_step i len w r = .error e) : e = .indexError := by
  unfold reaction_step at h
  by_cases ha : isAccounting r.id = true
  · rw [if_pos ha] at h
    cases h
  · rw [if_neg ha] at h
    cases hg : r.id.data.getLast? with
    | none => simp only [hg] at h; cases h; rfl
    | some c =>
      simp only [hg] at h
      by_cases hc : [c] = (natDecimal i).data
      · rw [if_pos hc] at h; cases h
      · rw [if_neg hc] at h; cases h

theorem phase_step_error_kind {m : Model} {i : Nat} {w : Dict Rat} {e : PyErr}
    (h : phase_step m i w = .error e) : e.isValueError = false := by
  unfold phase_step at h
  cases h1 : get_by_id m ("SUCROSE_v_gc_Linker_" ++ natDecimal i) with
  | error e1 =>
    rw [h1, exceptBind_error] at h
    cases h
    rw [listGetById_error h1]
    rfl
  | ok linker =>
    rw [h1, exceptBind_ok] at h
    cases h2 : get_coefficient linker ("SUCROSE_v_gc_" ++ natDecimal i) with
    | error e2 =>
      rw [h2, exceptBind_error] at h
      cases h
      rw [get_coefficient_error h2]
      rfl
    | ok c =>
      rw [h2, exceptBind_ok] at h
      by_cases hc : c = 0
      · rw [if_pos hc] at h
        cases h
        rfl
      · rw [if_neg hc] at h
        refine foldlM_error_kind ?_ h
        intro b a e2 hs
        rw [reaction_step_error hs]
        rfl

theorem get_weightings_error_kind {m : Model} {e : PyErr}
    (h : get_weightings m = .error e) : e.isValueError = false := by
  unfold get_weightings at h
  refine foldlM_error_kind ?_ h
  intro b a e2 hs
  exact phase_step_error_kind hs

theorem resolveWeightings_error_kind {m : Model} {wopt : Option (Dict Rat)} {e : PyErr}
    (h : resolveWeightings m wopt = .error e) : e.isValueError = false := by
  cases wopt with
  | none => exact get_weightings_error_kind h
  | some w => cases h

theorem varToken_error {v : String} {e : PyErr} (h : varToken v = .error e) :
    e = .indexError := by
  unfold varToken at h
  cases hs : splitOnChar (Char.ofNat 61) v.data with
  | nil => rw [hs] at h; cases h; rfl
  | cons a t =>
    cases t with
    | nil => rw [hs] at h; cases h; rfl
    | cons b t2 => rw [hs] at h; cases h

theorem assignCoefficients_error {ws : Dict Rat} {acc : Dict Rat × List String}
    {v : String} {e : PyErr} (h : assignCoefficients ws acc v = .error e) :
    e = .indexError := by
  unfold assignCoefficients at h
  cases ht : varToken v with
  | error e2 =>
    rw [ht, exceptBind_error] at h
    cases h
    exact varToken_error ht
  | ok t =>
    rw [ht, exceptBind_ok] at h
    cases hf : findWeight ws t with
    | some x => rw [hf] at h; cases h
    | none => rw [hf] at h; cases h

/-- After a successful run, the model objective is named
`"_pfba_objective"`. -/
theorem add_pfba_Weighted_sets_name {m : Model} {wopt : Option (Dict Rat)}
    {obj : Option String} {frac : Rat} {m2 : Model} {ns : List String}
    (h : add_pfba_Weighted m wopt obj frac = .ok (m2, ns)) :
    m2.objective_name = "_pfba_objective" := by
  unfold add_pfba_Weighted at h
  cases hr : resolveWeightings m wopt with
  | error e => rw [hr, exceptBind_error] at h; cases h
  | ok ws =>
    rw [hr, exceptBind_ok] at h
    by_cases hname : (addEffectiveModel m obj).objective_name = "_pfba_objective"
    · rw [if_pos hname] at h
      cases h
    · rw [if_neg hname] at h
      cases hfold : List.foldlM (assignCoefficients ws) ([], [])
          (modelVariables (pfbaPrepared (addEffectiveModel m obj))) with
      | error e => rw [hfold, exceptBind_error] at h; cases h
      | ok td =>
        rw [hfold, exceptBind_ok] at h
        cases h
        rfl

/-- C2: for every model, running the weighted objective builder
`add_pfba_Weighted` successfully and then invoking it again on the
resulting model (without resetting it) raises the duplicate-objective
`ValueError` on the second call; and an explicitly raised `ValueError` (the
only exception class the module raises itself) occurs exactly at the
objective-name collision, with the fixed message
`"The model already has a pFBA objective."` — it is the single defined
error condition of the builder. -/
theorem C2_add_pfba_Weighted_duplicate_objective :
    (∀ (m : Model) (w1 : Option (Dict Rat)) (obj : Option String) (frac : Rat)
        (m2 : Model) (ns : List String) (w2 : Option (Dict Rat)) (d : Dict Rat)
        (frac2 : Rat),
      add_pfba_Weighted m w1 obj frac = .ok (m2, ns) →
      resolveWeightings m2 w2 = .ok d →
      add_pfba_Weighted m2 w2 none frac2 =
        .error (.valueError "The model already has a pFBA objective.")) ∧
    (∀ (m : Model) (w : Option (Dict Rat)) (obj : Option String) (frac : Rat)
        (s : String),
      add_pfba_Weighted m w obj frac = .error (.valueError s) →
      s = "The model already has a pFBA objective." ∧
      (addEffectiveModel m obj).objective_name = "_pfba_objective") := by
  constructor
  · intro m w1 obj frac m2 ns w2 d frac2 h1 h2
    have hname := add_pfba_Weighted_sets_name h1
    unfold add_pfba_Weighted
    rw [h2, exceptBind_ok,
      if_pos (show (addEffectiveModel m2 none).objective_name = "_pfba_objective" from hname)]
  · intro m w obj frac s h
    unfold add_pfba_Weighted at h
    cases hr : resolveWeightings m w with
    | error e =>
      rw [hr, exceptBind_error] at h
      cases h
      have := resolveWeightings_error_kind hr
      simp [PyErr.isValueError] at this
    | ok ws =>
      rw [hr, exceptBind_ok] at h
      by_cases hname : (addEffectiveModel m obj).objective_name = "_pfba_objective"
      · rw [if_pos hname] at h
        cases h
        exact ⟨rfl, hname⟩
      · rw [if_neg hname] at h
        cases hfold : List.foldlM (assignCoefficients ws) ([], [])
            (modelVariables (pfbaPrepared (addEffectiveModel m obj))) with
        | error e =>
          rw [hfold, exceptBind_error] at h
          cases h
          have hkind := foldlM_error_kind
            (fun b a e2 hs => by rw [assignCoefficients_error hs]; rfl) hfold
          simp [PyErr.isValueError] at hkind
        | ok td =>
          rw [hfold, exceptBind_ok] at h
          cases h

/-- Concrete model for the C2 witness, with one weighted reaction whose
solver variable encodings follow the cobra layout. -/
def c2Model : Model :=
  { reactions :=
      [⟨"PEP_1", 0, 1, [], "0 <= PEP_1 <= 1", "0 <= PEP_1_reverse_b29af <= 0"⟩],
    number_of_models := 1, objective_name := "obj",
    objective_coefficients := [], fixed_objective_constraints := 0 }

/-- The model state after the first successful `add_pfba_Weighted` call on
`c2Model`. -/
def c2After : Model :=
  { reactions :=
      [⟨"PEP_1", 0, 1, [], "0 <= PEP_1 <= 1", "0 <= PEP_1_reverse_b29af <= 0"⟩],
    number_of_models := 1, objective_name := "_pfba_objective",
    objective_coefficients :=
      [("0 <= PEP_1 <= 1", 7), ("0 <= PEP_1_reverse_b29af <= 0", 7)],
    fixed_objective_constraints := 1 }

/-- Witness for C2: on `c2Model`, the first build succeeds and the second
raises the duplicate-objective error. -/
theorem C2_witness :
    (add_pfba_Weighted c2Model (some [("PEP_1", 7)]) none 1 = .ok (c2After, [])) ∧
    (resolveWeightings c2After (some [("PEP_1", 7)]) = .ok [("PEP_1", 7)]) ∧
    (add_pfba_Weighted c2After (some [("PEP_1", 7)]) none 1 =
      .error (.valueError "The model already has a pFBA objective.")) :=
  ⟨by rfl, by rfl,
    C2_add_pfba_Weighted_duplicate_objective.1 c2Model (some [("PEP_1", 7)]) none 1
      c2After [] (some [("PEP_1", 7)]) [("PEP_1", 7)] 1 (by rfl) (by rfl)⟩

/-- Notices already printed are preserved by the remaining iterations of the
coefficient loop. -/
theorem assignCoefficients_notice_mono {ws : Dict Rat} :
    ∀ {vars : List String} {acc out : Dict Rat × List String},
      List.foldlM (assignCoefficients ws) acc vars = .ok out →
      ∀ n ∈ acc.2, n ∈ out.2 := by
  intro vars
  induction vars with
  | nil =>
    intro acc out h n hn
    rw [List.foldlM_nil, exceptPure_eq_ok] at h
    cases h
    exact hn
  | cons a t ih =>
    intro acc out h n hn
    rw [List.foldlM_cons] at h
    cases hstep : assignCoefficients ws acc a with
    | error e => rw [hstep, exceptBind_error] at h; cases h
    | ok acc2 =>
      rw [hstep, exceptBind_ok] at h
      refine ih h n ?_
      unfold assignCoefficients at hstep
      cases ht : varToken a with
      | error e => rw [ht, exceptBind_error] at hstep; cases hstep
      | ok tok =>
        rw [ht, exceptBind_ok] at hstep
        cases hf : findWeight ws tok with
        | some x => simp only [hf] at hstep; cases hstep; exact hn
        | none => simp only [hf] at hstep; cases hstep; exact List.mem_append_left _ hn

/-- Coefficient bindings for variables outside the remaining worklist are
preserved by the coefficient loop. -/
theorem assignCoefficients_binding_mono {ws : Dict Rat} :
    ∀ {vars : List String} {acc out : Dict Rat × List String} {v : String},
      List.foldlM (assignCoefficients ws) acc vars = .ok out →
      v ∉ vars → dictGet out.1 v = dictGet acc.1 v := by
  intro vars
  induction vars with
  | nil =>
    intro acc out v h _
    rw [List.foldlM_nil, exceptPure_eq_ok] at h
    cases h
    rfl
  | cons a t ih =>
    intro acc out v h hv
    rw [List.foldlM_cons] at h
    cases hstep : assignCoefficients ws acc a with
    | error e => rw [hstep, exceptBind_error] at h; cases h
    | ok acc2 =>
      rw [hstep, exceptBind_ok] at h
      have hvt : v ∉ t := fun hm => hv (List.mem_cons_of_mem a hm)
      have hva : v ≠ a := fun he => hv (he ▸ List.mem_cons_self a t)
      rw [ih h hvt]
      unfold assignCoefficients at hstep
      cases ht : varToken a with
      | error e => rw [ht, exceptBind_error] at hstep; cases hstep
      | ok tok =>
        rw [ht, exceptBind_ok] at hstep
        cases hf : findWeight ws tok with
        | some x => simp only [hf] at hstep; cases hstep; exact dictGet_dictSet_ne _ _ _ _ hva
        | none => simp only [hf] at hstep; cases hstep; exact dictGet_dictSet_ne _ _ _ _ hva

/-- Specification of the coefficient loop of `add_pfba_Weighted`: every
variable in the (duplicate-free) worklist ends bound to the weight of the
first substring-matching weighting key, or to the default `1` together with
a printed notice. -/
theorem assignCoefficients_fold_spec {ws : Dict Rat} :
    ∀ {vars : List String} {acc out : Dict Rat × List String},
      vars.Nodup →
      List.foldlM (assignCoefficients ws) acc vars = .ok out →
      ∀ v ∈ vars, ∃ t, varToken v = .ok t ∧
        ((∃ x, findWeight ws t = some x ∧ dictGet out.1 v = some x) ∨
         (findWeight ws t = none ∧ dictGet out.1 v = some 1 ∧
           unmappedNotice t ∈ out.2)) := by
  intro vars
  induction vars with
  | nil => intro acc out _ _ v hv; simp at hv
  | cons a t ih =>
    intro acc out hnd h v hv
    rw [List.foldlM_cons] at h
    cases hstep : assignCoefficients ws acc a with
    | error e => rw [hstep, exceptBind_error] at h; cases h
    | ok acc2 =>
      rw [hstep, exceptBind_ok] at h
      rcases List.mem_cons.mp hv with he | hm
      · subst he
        have hnotin : v ∉ t := (List.nodup_cons.mp hnd).1
        unfold assignCoefficients at hstep
        cases ht : varToken v with
        | error e => rw [ht, exceptBind_error] at hstep; cases hstep
        | ok tok =>
          rw [ht, exceptBind_ok] at hstep
          cases hf : findWeight ws tok with
          | some x =>
            simp only [hf] at hstep
            cases hstep
            refine ⟨tok, rfl, Or.inl ⟨x, hf, ?_⟩⟩
            rw [assignCoefficients_binding_mono h hnotin]
            exact dictGet_dictSet_self _ _ _
          | none =>
            simp only [hf] at hstep
            cases hstep
            refine ⟨tok, rfl, Or.inr ⟨hf, ?_, ?_⟩⟩
            · rw [assignCoefficients_binding_mono h hnotin]
              exact dictGet_dictSet_self _ _ _
            · exact assignCoefficients_notice_mono h _
                (List.mem_append_right _ (List.mem_singleton.mpr rfl))
      · exact ih (List.nodup_cons.mp hnd).2 h v hm

theorem modelVariables_prepared (m : Model) (obj : Option String) :
    modelVariables (pfbaPrepared (addEffectiveModel m obj)) = modelVariables m := by
  cases obj <;> rfl

/-- C7: in `add_pfba_Weighted`, every forward and reverse flux variable
receives as its objective coefficient the weight bound to the first
weighting-map key whose text occurs as a substring of the variable token
extracted from its textual encoding; if no key matches, the coefficient
defaults to `1` and the caller-visible notice for that token is emitted —
the unmapped case produces no exception (the call still returns
successfully with the defaulted coefficient). -/
theorem C7_add_pfba_Weighted_coefficients (m : Model) (wopt : Option (Dict Rat))
    (obj : Option String) (frac : Rat) (ws : Dict Rat) (m2 : Model) (ns : List String)
    (hw : resolveWeightings m wopt = .ok ws)
    (hok : add_pfba_Weighted m wopt obj frac = .ok (m2, ns))
    (hnd : (modelVariables m).Nodup) :
    ∀ v ∈ modelVariables m, ∃ t, varToken v = .ok t ∧
      ((∃ x, findWeight ws t = some x ∧ dictGet m2.objective_coefficients v = some x) ∨
       (findWeight ws t = none ∧ dictGet m2.objective_coefficients v = some 1 ∧
         unmappedNotice t ∈ ns)) := by
  unfold add_pfba_Weighted at hok
  rw [hw, exceptBind_ok] at hok
  by_cases hname : (addEffectiveModel m obj).objective_name = "_pfba_objective"
  · rw [if_pos hname] at hok
    cases hok
  · rw [if_neg hname] at hok
    cases hfold : List.foldlM (assignCoefficients ws) ([], [])
        (modelVariables (pfbaPrepared (addEffectiveModel m obj))) with
    | error e => rw [hfold, exceptBind_error] at hok; cases hok
    | ok td =>
      rw [hfold, exceptBind_ok] at hok
      cases hok
      rw [modelVariables_prepared] at hfold
      exact assignCoefficients_fold_spec hnd hfold

/-- Concrete model for the C7 witness: one reaction covered by the
weighting map and one not covered. -/
def c7Model : Model :=
  { reactions :=
      [⟨"PEP_1", 0, 1, [], "0 <= PEP_1 <= 1", "0 <= PEP_1_reverse_b29af <= 0"⟩,
       ⟨"OTHER", 0, 1, [], "0 <= OTHER <= 1", "0 <= OTHER_reverse_17a2f <= 0"⟩],
    number_of_models := 1, objective_name := "obj",
    objective_coefficients := [], fixed_objective_constraints := 0 }

/-- Model state after `add_pfba_Weighted` on `c7Model`: the mapped reaction
takes weight 7 on both variables, the unmapped one defaults to 1. -/
def c7After : Model :=
  { reactions :=
      [⟨"PEP_1", 0, 1, [], "0 <= PEP_1 <= 1", "0 <= PEP_1_reverse_b29af <= 0"⟩,
       ⟨"OTHER", 0, 1, [], "0 <= OTHER <= 1", "0 <= OTHER_reverse_17a2f <= 0"⟩],
    number_of_models := 1, objective_name := "_pfba_objective",
    objective_coefficients :=
      [("0 <= PEP_1 <= 1", 7), ("0 <= PEP_1_reverse_b29af <= 0", 7),
       ("0 <= OTHER <= 1", 1), ("0 <= OTHER_reverse_17a2f <= 0", 1)],
    fixed_objective_constraints := 1 }

/-- Witness for C7 at `c7Model`, discharging all three hypotheses. -/
theorem C7_witness :
    (resolveWeightings c7Model (some [("PEP_1", 7)]) = .ok [("PEP_1", 7)] ∧
     add_pfba_Weighted c7Model (some [("PEP_1", 7)]) none 1 =
       .ok (c7After, [unmappedNotice "OTHER", unmappedNotice "OTHER_reverse_17a2f"]) ∧
     (modelVariables c7Model).Nodup) ∧
    (∀ v ∈ modelVariables c7Model, ∃ t, varToken v = .ok t ∧
      ((∃ x, findWeight [("PEP_1", 7)] t = some x ∧
          dictGet c7After.objective_coefficients v = some x) ∨
       (findWeight [("PEP_1", 7)] t = none ∧
          dictGet c7After.objective_coefficients v = some 1 ∧
          unmappedNotice t ∈
            [unmappedNotice "OTHER", unmappedNotice "OTHER_reverse_17a2f"]))) :=
  ⟨⟨by rfl, by rfl, by decide⟩,
    C7_add_pfba_Weighted_coefficients c7Model (some [("PEP_1", 7)]) none 1
      [("PEP_1", 7)] c7After [unmappedNotice "OTHER", unmappedNotice "OTHER_reverse_17a2f"]
      (by rfl) (by rfl) (by decide)⟩

/-! ## C9: the undefined configuration default for processes -/

/-- C9: for every model and every solve oracle, calling
`flux_variability_analysis` with the `processes` argument omitted fails
with the name-resolution error for `configuration` (the module never
defines or imports it), before any optimization is attempted: the outcome
is the same for every oracle, no warnings are emitted, and no solver value
is consulted. -/
theorem C9_fva_configuration_undefined (m : Model) (oracle : SolveOracle)
    (loopless : Bool) (frac : Rat) (pfba_factor : Option Rat) (sm sx : List String) :
    flux_variability_analysis m oracle none loopless frac pfba_factor none sm sx =
      ([], .error (.nameError "configuration")) := rfl

/-! ## C6: the pfba_factor branch calls the undefined add_pfba -/

/-- Model for the C6 failing input. -/
def c6Model : Model :=
  { reactions := [⟨"R1", 0, 10, [], "0 <= R1 <= 10", "0 <= R1_reverse_f1a2b <= 0"⟩],
    number_of_models := 1, objective_name := "obj",
    objective_coefficients := [], fixed_objective_constraints := 0 }

/-- Solve oracle for the C6 failing input: the baseline solve is feasible. -/
def c6Oracle : SolveOracle :=
  { objective_value := some 1, fva_min := fun _ => 0, fva_max := fun _ => 0 }

/-- C6: on a feasible model with `pfba_factor = 0 < 1.0`,
`flux_variability_analysis` emits the caller-visible low-factor warning and
then raises `NameError` for `add_pfba` — the module never defines or
imports `add_pfba`, so the variability computation is never reached; the
claim (and the spec) say the computation proceeds after the warning. -/
theorem C6_low_pfba_factor_crashes :
    flux_variability_analysis c6Model c6Oracle none false 1 (some 0) (some 3) [] [] =
      ([lowPfbaFactorWarning], .error (.nameError "add_pfba")) := rfl

/-! ## C3: degree-1 and degree-K variability runs agree -/

theorem writeAt_keys (tbl : List (String × Rat × Rat)) (k : String) (which : Bool)
    (v : Rat) : (writeAt tbl k which v).map Prod.fst = tbl.map Prod.fst := by
  induction tbl with
  | nil => rfl
  | cons row rest ih =>
    by_cases h : row.1 = k
    · simp [writeAt, h]
    · simp [writeAt, h, ih]

theorem writeAt_eq_map {tbl : List (String × Rat × Rat)} {k : String} {which : Bool}
    {v : Rat} (hk : (tbl.map Prod.fst).Nodup) :
    writeAt tbl k which v =
      tbl.map (fun row =>
        if row.1 = k then (row.1, if which then (row.2.1, v) else (v, row.2.2))
        else row) := by
  induction tbl with
  | nil => rfl
  | cons row rest ih =>
    simp only [List.map_cons, List.nodup_cons] at hk
    by_cases h : row.1 = k
    · rw [writeAt, if_pos h, List.map_cons, if_pos h]
      have hrest : ∀ r ∈ rest, ¬ r.1 = k := by
        intro r hr he
        exact hk.1 (h ▸ he ▸ List.mem_map_of_mem Prod.fst hr)
      have : rest.map (fun row =>
          if row.1 = k then (row.1, if which then (row.2.1, v) else (v, row.2.2))
          else row) = rest := by
        refine List.map_congr_left ?_ |>.trans (List.map_id rest)
        intro r hr
        rw [if_neg (hrest r hr)]
        rfl
      rw [this]
    · rw [writeAt, if_neg h, List.map_cons, if_neg h, ih hk.2]

theorem fvaPass_keys (tbl : List (String × Rat × Rat)) (which : Bool)
    (ord : List String) (f : String → Rat) :
    (fvaPass tbl which ord f).map Prod.fst = tbl.map Prod.fst := by
  induction ord generalizing tbl with
  | nil => rfl
  | cons k ord ih =>
    rw [fvaPass, List.foldl_cons]
    have := ih (writeAt tbl k which (f k))
    rw [fvaPass] at this
    rw [this, writeAt_keys]

/-- A full pass over a duplicate-free arrival order updates, in any order,
exactly the cells whose key is listed. -/
theorem fvaPass_eq_map {f : String → Rat} {which : Bool} :
    ∀ {ord : List String} {tbl : List (String × Rat × Rat)},
      ord.Nodup → (tbl.map Prod.fst).Nodup →
      fvaPass tbl which ord f =
        tbl.map (fun row =>
          if row.1 ∈ ord then
            (row.1, if which then (row.2.1, f row.1) else (f row.1, row.2.2))
          else row) := by
  intro ord
  induction ord with
  | nil =>
    intro tbl _ _
    rw [fvaPass, List.foldl_nil]
    symm
    refine (List.map_congr_left ?_).trans (List.map_id tbl)
    intro r hr
    simp
  | cons k ord ih =>
    intro tbl hnd hk
    have hknotin : k ∉ ord := (List.nodup_cons.mp hnd).1
    rw [fvaPass, List.foldl_cons]
    have hstep : fvaPass (writeAt tbl k which (f k)) which ord f =
        (writeAt tbl k which (f k)).map (fun row =>
          if row.1 ∈ ord then
            (row.1, if which then (row.2.1, f row.1) else (f row.1, row.2.2))
          else row) := by
      refine ih (List.nodup_cons.mp hnd).2 ?_
      rw [writeAt_keys]
      exact hk
    rw [fvaPass] at hstep
    rw [hstep, writeAt_eq_map hk, List.map_map]
    refine List.map_congr_left ?_
    intro row hrow
    by_cases hrk : row.1 = k
    · simp [Function.comp, hrk, hknotin]
    · simp [Function.comp, hrk]

/-- Two duplicate-free arrival orders with the same members produce the same
table. -/
theorem fvaPass_order_irrelevant {f : String → Rat} {which : Bool}
    {tbl : List (String × Rat × Rat)} {ord1 ord2 : List String}
    (h1 : ord1.Nodup) (h2 : ord2.Nodup) (hm : ∀ s, s ∈ ord1 ↔ s ∈ ord2)
    (hk : (tbl.map Prod.fst).Nodup) :
    fvaPass tbl which ord1 f = fvaPass tbl which ord2 f := by
  rw [fvaPass_eq_map h1 hk, fvaPass_eq_map h2 hk]
  refine List.map_congr_left ?_
  intro row hrow
  by_cases hro : row.1 ∈ ord1
  · rw [if_pos hro, if_pos ((hm row.1).mp hro)]
  · rw [if_neg hro, if_neg (fun hc => hro ((hm row.1).mpr hc))]

theorem initFvaResult_keys (ids : List String) :
    (initFvaResult ids).map Prod.fst = ids := by
  induction ids with
  | nil => rfl
  | cons a t ih => simp [initFvaResult] at ih ⊢; exact ih

/-- C3: for every model, reaction subset and parallelism degree `K`
(whether or not `K` divides the number of reactions evenly — the chunk size
does not influence the result), `flux_variability_analysis` run with one
process and with `K` processes produce identical result tables, hence
identical (minimum, maximum) values for every listed reaction, for any
arrival orders of the pool results. -/
theorem C3_fva_degree_equivalence (m : Model) (oracle : SolveOracle)
    (rl : Option (List String)) (loopless : Bool) (frac : Rat) (K : Nat)
    (ids sm sx s1 s2 : List String)
    (hres : resolveReactionIds m rl = .ok ids)
    (hnd : ids.Nodup) (hsm : sm.Perm ids) (hsx : sx.Perm ids) :
    flux_variability_analysis m oracle rl loopless frac none (some K) sm sx =
      flux_variability_analysis m oracle rl loopless frac none (some 1) s1 s2 := by
  unfold flux_variability_analysis
  rw [hres]
  cases hov : oracle.objective_value with
  | none => rfl
  | some v =>
    simp only
    have h1 : ¬ 1 < min 1 ids.length := by
      have := Nat.min_le_left 1 ids.length
      omega
    rw [if_neg h1, if_neg h1]
    by_cases hK : 1 < min K ids.length
    · rw [if_pos hK, if_pos hK]
      have hkeys0 : ((initFvaResult ids).map Prod.fst).Nodup := by
        rw [initFvaResult_keys]; exact hnd
      have hpass1 : fvaPass (initFvaResult ids) false sm oracle.fva_min =
          fvaPass (initFvaResult ids) false ids oracle.fva_min :=
        fvaPass_order_irrelevant (hsm.nodup_iff.mpr hnd) hnd
          (fun s => hsm.mem_iff) hkeys0
      have hpass2 : fvaPass (fvaPass (initFvaResult ids) false ids oracle.fva_min)
            true sx oracle.fva_max =
          fvaPass (fvaPass (initFvaResult ids) false ids oracle.fva_min)
            true ids oracle.fva_max := by
        refine fvaPass_order_irrelevant (hsx.nodup_iff.mpr hnd) hnd
          (fun s => hsx.mem_iff) ?_
        rw [fvaPass_keys, initFvaResult_keys]
        exact hnd
      rw [hpass1, hpass2]
    · rw [if_neg hK, if_neg hK]

/-- Concrete model for the C3 witness. -/
def c3Model : Model :=
  { reactions := [⟨"A", 0, 10, [], "", ""⟩, ⟨"B", 0, 10, [], "", ""⟩],
    number_of_models := 0, objective_name := "obj",
    objective_coefficients := [], fixed_objective_constraints := 0 }

/-- Concrete solve oracle for the C3 witness. -/
def c3Oracle : SolveOracle :=
  { objective_value := some 1,
    fva_min := fun s => if s = "A" then 1 else 2,
    fva_max := fun s => if s = "A" then 9 else 8 }

/-- Witness for C3: a two-reaction model run with two processes and a
reversed arrival order agrees with the sequential run. -/
theorem C3_witness :
    (resolveReactionIds c3Model none = .ok ["A", "B"] ∧
      (["A", "B"] : List String).Nodup ∧
      (["B", "A"] : List String).Perm ["A", "B"]) ∧
    flux_variability_analysis c3Model c3Oracle none false 1 none (some 2)
        ["B", "A"] ["B", "A"] =
      flux_variability_analysis c3Model c3Oracle none false 1 none (some 1) [] [] :=
  ⟨⟨rfl, by decide, by decide⟩,
    C3_fva_degree_equivalence c3Model c3Oracle none false 1 2 ["A", "B"]
      ["B", "A"] ["B", "A"] [] [] rfl (by decide) (by decide) (by decide)⟩

/-! ## C4: accounting reactions are weighted zero -/

/-- A zero binding for an accounting identifier survives the rest of the
per-phase reaction sweep. -/
theorem reaction_fold_preserves_acc {i : Nat} {len : Rat} :
    ∀ {l : List Reaction} {w w2 : Dict Rat},
      List.foldlM (reaction_step i len) w l = .ok w2 →
      ∀ s, isAccounting s = true → dictGet w s = some 0 → dictGet w2 s = some 0 := by
  intro l
  induction l with
  | nil =>
    intro w w2 h s _ hw
    rw [List.foldlM_nil, exceptPure_eq_ok] at h
    cases h
    exact hw
  | cons r t ih =>
    intro w w2 h s hacc hw
    rw [List.foldlM_cons] at h
    cases hstep : reaction_step i len w r with
    | error e => rw [hstep, exceptBind_error] at h; cases h
    | ok w1 =>
      rw [hstep, exceptBind_ok] at h
      refine ih h s hacc ?_
      unfold reaction_step at hstep
      by_cases ha : isAccounting r.id = true
      · rw [if_pos ha] at hstep
        cases hstep
        by_cases he : s = r.id
        · subst he
          exact dictGet_dictSet_self _ _ _
        · rw [dictGet_dictSet_ne _ _ _ _ he]
          exact hw
      · rw [if_neg ha] at hstep
        have hne : s ≠ r.id := by
          intro he
          rw [he] at hacc
          exact ha hacc
        cases hg : r.id.data.getLast? with
        | none => simp only [hg] at hstep; cases hstep
        | some c =>
          simp only [hg] at hstep
          by_cases hc : [c] = (natDecimal i).data
          · rw [if_pos hc] at hstep
            cases hstep
            rw [dictGet_dictSet_ne _ _ _ _ hne]
            exact hw
          · rw [if_neg hc] at hstep
            cases hstep
            exact hw

/-- The per-phase reaction sweep binds every accounting reaction of the
worklist to zero. -/
theorem reaction_fold_acc_binding {i : Nat} {len : Rat} :
    ∀ {l : List Reaction} {w w2 : Dict Rat},
      List.foldlM (reaction_step i len) w l = .ok w2 →
      ∀ r ∈ l, isAccounting r.id = true → dictGet w2 r.id = some 0 := by
  intro l
  induction l with
  | nil => intro w w2 _ r hr; simp at hr
  | cons q t ih =>
    intro w w2 h r hr hacc
    rw [List.foldlM_cons] at h
    cases hstep : reaction_step i len w q with
    | error e => rw [hstep, exceptBind_error] at h; cases h
    | ok w1 =>
      rw [hstep, exceptBind_ok] at h
      rcases List.mem_cons.mp hr with he | hm
      · subst he
        refine reaction_fold_preserves_acc h r.id hacc ?_
        unfold reaction_step at hstep
        rw [if_pos hacc] at hstep
        cases hstep
        exact dictGet_dictSet_self _ _ _
      · exact ih h r hm hacc

theorem phase_step_acc_binding {m : Model} {i : Nat} {w w2 : Dict Rat}
    (h : phase_step m i w = .ok w2) :
    ∀ r ∈ m.reactions, isAccounting r.id = true → dictGet w2 r.id = some 0 := by
  unfold phase_step at h
  cases h1 : get_by_id m ("SUCROSE_v_gc_Linker_" ++ natDecimal i) with
  | error e => rw [h1, exceptBind_error] at h; cases h
  | ok linker =>
    rw [h1, exceptBind_ok] at h
    cases h2 : get_coefficient linker ("SUCROSE_v_gc_" ++ natDecimal i) with
    | error e => rw [h2, exceptBind_error] at h; cases h
    | ok c =>
      rw [h2, exceptBind_ok] at h
      by_cases hc : c = 0
      · rw [if_pos hc] at h; cases h
      · rw [if_neg hc] at h
        exact fun r hr hacc => reaction_fold_acc_binding h r hr hacc

theorem phase_step_preserves_acc {m : Model} {i : Nat} {w w2 : Dict Rat}
    (h : phase_step m i w = .ok w2) :
    ∀ s, isAccounting s = true → dictGet w s = some 0 → dictGet w2 s = some 0 := by
  unfold phase_step at h
  cases h1 : get_by_id m ("SUCROSE_v_gc_Linker_" ++ natDecimal i) with
  | error e => rw [h1, exceptBind_error] at h; cases h
  | ok linker =>
    rw [h1, exceptBind_ok] at h
    cases h2 : get_coefficient linker ("SUCROSE_v_gc_" ++ natDecimal i) with
    | error e => rw [h2, exceptBind_error] at h; cases h
    | ok c =>
      rw [h2, exceptBind_ok] at h
      by_cases hc : c = 0
      · rw [if_pos hc] at h; cases h
      · rw [if_neg hc] at h
        exact fun s hacc hw => reaction_fold_preserves_acc h s hacc hw

/-- A zero binding for an accounting identifier survives any number of later
phase sweeps. -/
theorem phases_fold_preserves_acc {m : Model} :
    ∀ {is : List Nat} {w w2 : Dict Rat},
      List.foldlM (fun w i => phase_step m i w) w is = .ok w2 →
      ∀ s, isAccounting s = true → dictGet w s = some 0 → dictGet w2 s = some 0 := by
  intro is
  induction is with
  | nil =>
    intro w w2 h s _ hw
    rw [List.foldlM_nil, exceptPure_eq_ok] at h
    cases h
    exact hw
  | cons i t ih =>
    intro w w2 h s hacc hw
    rw [List.foldlM_cons] at h
    cases hstep : phase_step m i w with
    | error e => rw [hstep, exceptBind_error] at h; cases h
    | ok w1 =>
      rw [hstep, exceptBind_ok] at h
      exact ih h s hacc (phase_step_preserves_acc hstep s hacc hw)

/-- C4: for every model with at least one phase on which `get_weightings`
succeeds, every reaction whose identifier contains the substring
`"constraint"`, `"overall"` or `"sum"`, or whose first two characters are
`"EX"`, is mapped to weight 0, regardless of any phase suffix on the
identifier (the accounting test is checked before the phase-suffix
test). -/
theorem C4_get_weightings_accounting_zero (m : Model) (w : Dict Rat) (r : Reaction)
    (hw : get_weightings m = .ok w) (hN : 1 ≤ m.number_of_models)
    (hr : r ∈ m.reactions) (hacc : isAccounting r.id = true) :
    dictGet w r.id = some 0 := by
  unfold get_weightings check_number_of_models at hw
  obtain ⟨n, hn⟩ : ∃ n, m.number_of_models = n + 1 := ⟨m.number_of_models - 1, by omega⟩
  rw [hn, List.range'_succ, List.foldlM_cons] at hw
  cases h1 : phase_step m 1 [] with
  | error e => rw [h1, exceptBind_error] at hw; cases hw
  | ok w1 =>
    rw [h1, exceptBind_ok] at hw
    exact phases_fold_preserves_acc hw r.id hacc (phase_step_acc_binding h1 r hr hacc)

/-- Concrete model for the C4 witness: a one-phase model with its linker
reaction and an exchange reaction. -/
def c4Model : Model :=
  { reactions :=
      [⟨"SUCROSE_v_gc_Linker_1", 0, 10, [("SUCROSE_v_gc_1", -1)], "", ""⟩,
       ⟨"EX_t", 0, 10, [], "", ""⟩],
    number_of_models := 1, objective_name := "obj",
    objective_coefficients := [], fixed_objective_constraints := 0 }

/-- The weighting dict `get_weightings` produces on `c4Model` (the linker
reaction identifier ends in the phase digit, so it receives the phase
length `1 / (-(-1))`). -/
def c4Weightings : Dict Rat :=
  [("SUCROSE_v_gc_Linker_1", 1 / (-(-1 : Rat))), ("EX_t", 0)]

/-- Witness for C4 at `c4Model` and its exchange reaction `EX_t`. -/
theorem C4_witness :
    (get_weightings c4Model = .ok c4Weightings ∧
      1 ≤ c4Model.number_of_models ∧
      (⟨"EX_t", 0, 10, [], "", ""⟩ : Reaction) ∈ c4Model.reactions ∧
      isAccounting "EX_t" = true) ∧
    dictGet c4Weightings "EX_t" = some 0 :=
  ⟨⟨by rfl, by decide, by decide, by decide⟩,
    C4_get_weightings_accounting_zero c4Model c4Weightings
      ⟨"EX_t", 0, 10, [], "", ""⟩ (by rfl) (by decide) (by decide) (by decide)⟩

/-! ## C10: phases with two-digit indices never assign a weight -/

theorem natDecimalAux_length :
    ∀ (fuel n : Nat) (acc : List Char), n < fuel →
      acc.length + 1 ≤ (natDecimalAux fuel n acc).length := by
  intro fuel
  induction fuel with
  | zero => intro n acc h; omega
  | succ f ih =>
    intro n acc h
    rw [natDecimalAux]
    by_cases h10 : n < 10
    · rw [if_pos h10]
      simp
    · rw [if_neg h10]
      have hlt : n / 10 < f := by
        have h2 : n / 10 < n := Nat.div_lt_self (by omega) (by omega)
        omega
      have := ih (n / 10) (Nat.digitChar (n % 10) :: acc) hlt
      simp at this
      omega

theorem natDecimal_length_ge_two {i : Nat} (h : 10 ≤ i) :
    2 ≤ (natDecimal i).data.length := by
  show 2 ≤ (natDecimalAux (i + 1) i []).length
  rw [natDecimalAux, if_neg (by omega)]
  have hlt : i / 10 < i := Nat.div_lt_self (by omega) (by omega)
  have := natDecimalAux_length i (i / 10) [Nat.digitChar (i % 10)] (by omega)
  simp at this
  omega

/-- A one-character string never equals the decimal representation of a
two-digit phase index. -/
theorem single_char_ne_natDecimal {i : Nat} (h : 10 ≤ i) (c : Char) :
    ¬ ([c] = (natDecimal i).data) := by
  intro he
  have h2 := natDecimal_length_ge_two h
  rw [← he] at h2
  simp at h2

/-- For a two-digit phase index, the reaction sweep leaves every
non-accounting binding unchanged. -/
theorem reaction_fold_two_digit {i : Nat} {len : Rat} (hi : 10 ≤ i) :
    ∀ {l : List Reaction} {w w2 : Dict Rat},
      List.foldlM (reaction_step i len) w l = .ok w2 →
      ∀ s, isAccounting s = false → dictGet w2 s = dictGet w s := by
  intro l
  induction l with
  | nil =>
    intro w w2 h s _
    rw [List.foldlM_nil, exceptPure_eq_ok] at h
    cases h
    rfl
  | cons r t ih =>
    intro w w2 h s hacc
    rw [List.foldlM_cons] at h
    cases hstep : reaction_step i len w r with
    | error e => rw [hstep, exceptBind_error] at h; cases h
    | ok w1 =>
      rw [hstep, exceptBind_ok] at h
      rw [ih h s hacc]
      unfold reaction_step at hstep
      by_cases ha : isAccounting r.id = true
      · rw [if_pos ha] at hstep
        cases hstep
        have hne : s ≠ r.id := by
          intro he
          rw [he, ha] at hacc
          cases hacc
        exact dictGet_dictSet_ne _ _ _ _ hne
      · rw [if_neg ha] at hstep
        cases hg : r.id.data.getLast? with
        | none => simp only [hg] at hstep; cases hstep
        | some c =>
          simp only [hg] at hstep
          rw [if_neg (single_char_ne_natDecimal hi c)] at hstep
          cases hstep
          rfl

/-- C10: in `get_weightings`, a reaction is assigned a phase length only
when the single final character of its identifier equals the decimal
string of the phase index; consequently, a phase sweep with index
`i >= 10` changes no non-accounting binding (one character can never equal
a two-digit decimal string), so reactions of such phases are left
unweighted. -/
theorem C10_two_digit_phases_assign_nothing :
    (∀ (i : Nat) (len : Rat) (w : Dict Rat) (r : Reaction) (w2 : Dict Rat),
      reaction_step i len w r = .ok w2 → isAccounting r.id = false → w2 ≠ w →
      ∃ c, r.id.data.getLast? = some c ∧ [c] = (natDecimal i).data) ∧
    (∀ (m : Model) (i : Nat) (w w2 : Dict Rat),
      10 ≤ i → phase_step m i w = .ok w2 →
      ∀ s, isAccounting s = false → dictGet w2 s = dictGet w s) := by
  constructor
  · intro i len w r w2 hstep hacc hne
    unfold reaction_step at hstep
    rw [if_neg (by rw [hacc]; exact Bool.false_ne_true)] at hstep
    cases hg : r.id.data.getLast? with
    | none => simp only [hg] at hstep; cases hstep
    | some c =>
      simp only [hg] at hstep
      by_cases hc : [c] = (natDecimal i).data
      · exact ⟨c, rfl, hc⟩
      · rw [if_neg hc] at hstep
        cases hstep
        exact absurd rfl hne
  · intro m i w w2 hi h s hacc
    unfold phase_step at h
    cases h1 : get_by_id m ("SUCROSE_v_gc_Linker_" ++ natDecimal i) with
    | error e => rw [h1, exceptBind_error] at h; cases h
    | ok linker =>
      rw [h1, exceptBind_ok] at h
      cases h2 : get_coefficient linker ("SUCROSE_v_gc_" ++ natDecimal i) with
      | error e => rw [h2, exceptBind_error] at h; cases h
      | ok c =>
        rw [h2, exceptBind_ok] at h
        by_cases hc : c = 0
        · rw [if_pos hc] at h; cases h
        · rw [if_neg hc] at h
          exact reaction_fold_two_digit hi h s hacc

/-- Concrete ten-phase-style model for the C10 witness: the phase-10 linker
is present, and the reaction `R_10` ends in the digit `0`, not in the
two-character string `"10"`. -/
def c10Model : Model :=
  { reactions :=
      [⟨"SUCROSE_v_gc_Linker_10", 0, 10, [("SUCROSE_v_gc_10", -1)], "", ""⟩,
       ⟨"R_10", 0, 10, [], "", ""⟩,
       ⟨"EX_t", 0, 10, [], "", ""⟩],
    number_of_models := 10, objective_name := "obj",
    objective_coefficients := [], fixed_objective_constraints := 0 }

/-- Witness for C10: one assigning `reaction_step` at phase 3, and the
phase-10 sweep of `c10Model` leaving the non-accounting reaction `R_10`
unbound. -/
theorem C10_witness :
    (reaction_step 3 5 [] ⟨"R_3", 0, 1, [], "", ""⟩ = .ok [("R_3", 5)] ∧
      isAccounting "R_3" = false ∧
      ([("R_3", (5 : Rat))] : Dict Rat) ≠ [] ∧
      (∃ c, "R_3".data.getLast? = some c ∧ [c] = (natDecimal 3).data)) ∧
    ((10 : Nat) ≤ 10 ∧
      phase_step c10Model 10 [] = .ok [("EX_t", 0)] ∧
      isAccounting "R_10" = false ∧
      dictGet [("EX_t", (0 : Rat))] "R_10" = dictGet ([] : Dict Rat) "R_10") :=
  ⟨⟨by rfl, by decide, by decide,
    C10_two_digit_phases_assign_nothing.1 3 5 [] ⟨"R_3", 0, 1, [], "", ""⟩
      [("R_3", 5)] (by rfl) (by decide) (by decide)⟩,
   ⟨by decide, by rfl, by decide,
    C10_two_digit_phases_assign_nothing.2 c10Model 10 [] [("EX_t", 0)]
      (by decide) (by rfl) "R_10" (by decide)⟩⟩

/-! ## C8: the aggregator fold is the identity on already-folded tables -/

theorem listIsPrefixOf_refl (l : List Char) : l.isPrefixOf l = true := by
  induction l with
  | nil => rfl
  | cons a t ih => simp [List.isPrefixOf, ih]

theorem containsAux_append_self (pat : List Char) :
    ∀ s : List Char, containsAux pat (s ++ pat) = true := by
  intro s
  induction s with
  | nil =>
    cases pat with
    | nil => rfl
    | cons c t => simp [containsAux, listIsPrefixOf_refl]
  | cons c s ih => simp [containsAux, ih]

theorem strContains_append_rev (k : String) :
    strContains (k ++ "_reverse") "_reverse" = true := by
  show containsAux "_reverse".data (k ++ "_reverse").data = true
  have hdata : (k ++ "_reverse").data = k.data ++ "_reverse".data := rfl
  rw [hdata]
  exact containsAux_append_self _ _

theorem dictGet_of_mem_nodup {α : Type} {d : Dict α} {k : String} {v : α}
    (hnd : (dictKeys d).Nodup) (h : (k, v) ∈ d) : dictGet d k = some v := by
  induction d with
  | nil => simp at h
  | cons p rest ih =>
    simp only [dictKeys, List.map_cons, List.nodup_cons] at hnd
    rcases List.mem_cons.mp h with he | hm
    · subst he
      simp [dictGet]
    · have hne : ¬ p.1 = k := by
        intro he
        exact hnd.1 (he ▸ List.mem_map_of_mem Prod.fst hm)
      rw [dictGet, if_neg hne]
      exact ih hnd.2 hm

theorem dictGet_none_of_not_mem_keys {α : Type} {d : Dict α} {k : String}
    (h : k ∉ dictKeys d) : dictGet d k = none := by
  induction d with
  | nil => rfl
  | cons p rest ih =>
    simp only [dictKeys, List.map_cons, List.mem_cons] at h
    push_neg at h
    rw [dictGet, if_neg (fun he => h.1 he.symm)]
    exact ih h.2

theorem dictGet_rev_none {d : Dict Rat} {k : String}
    (hall : ∀ p ∈ d, strContains p.1 "_reverse" = false) :
    dictGet d (k ++ "_reverse") = none := by
  induction d with
  | nil => rfl
  | cons p rest ih =>
    have hne : ¬ p.1 = k ++ "_reverse" := by
      intro he
      have := hall p (List.mem_cons_self p rest)
      rw [he, strContains_append_rev] at this
      cases this
    rw [dictGet, if_neg hne]
    exact ih (fun q hq => hall q (List.mem_cons_of_mem p hq))

theorem dictSet_append_of_none {α : Type} {d : Dict α} {k : String} {v : α}
    (h : dictGet d k = none) : dictSet d k v = d ++ [(k, v)] := by
  induction d with
  | nil => rfl
  | cons p rest ih =>
    by_cases hp : p.1 = k
    · rw [dictGet, if_pos hp] at h
      cases h
    · rw [dictGet, if_neg hp] at h
      rw [dictSet, if_neg hp, ih h, List.cons_append]

theorem contains_false_of_not_mem {l : List String} {a : String} (h : a ∉ l) :
    l.contains a = false := by
  by_contra hc
  rw [Bool.not_eq_false] at hc
  exact h (by simpa using hc)

theorem dictGet_append_single_none {α : Type} {out : Dict α} {k k2 : String} {v : α}
    (h1 : dictGet out k2 = none) (h2 : k2 ≠ k) :
    dictGet (out ++ [(k, v)]) k2 = none := by
  induction out with
  | nil =>
    rw [List.nil_append, dictGet, if_neg (fun he => h2 he.symm)]
    rfl
  | cons o rest ih =>
    rw [List.cons_append, dictGet]
    rw [dictGet] at h1
    by_cases ho : o.1 = k2
    · rw [if_pos ho] at h1
      cases h1
    · rw [if_neg ho] at h1 ⊢
      exact ih h1

/-- The aggregator fold, run over a suffix of a table with no `"_reverse"`
keys, appends exactly that suffix to the accumulated output. -/
theorem c8_fold_spec {fva : Dict Rat}
    (hnc : ∀ p ∈ fva, strContains p.1 "_reverse" = false) :
    ∀ {l : List (String × Rat)} {seen : List String} {out : Dict Rat},
      (∀ p ∈ l, dictGet fva p.1 = some p.2) →
      (∀ p ∈ l, p.1 ∉ seen) →
      (∀ p ∈ l, dictGet out p.1 = none) →
      (∀ p ∈ l, strContains p.1 "_reverse" = false) →
      (dictKeys l).Nodup →
      ∃ seen2, List.foldlM (foldStep fva) (seen, out) (dictKeys l) =
        .ok (seen2, out ++ l) := by
  intro l
  induction l with
  | nil =>
    intro seen out _ _ _ _ _
    exact ⟨seen, by rw [dictKeys, List.map_nil, List.foldlM_nil, exceptPure_eq_ok,
      List.append_nil]⟩
  | cons p t ih =>
    obtain ⟨pk, pv⟩ := p
    intro seen out hget hseen hout hnrev hnd
    have hp_nrev : strContains pk "_reverse" = false :=
      hnrev (pk, pv) (List.mem_cons_self _ t)
    have hcm : pk ∉ seen := hseen (pk, pv) (List.mem_cons_self _ t)
    have hc : seen.contains pk = false := contains_false_of_not_mem hcm
    have hg : dictGet fva pk = some pv := hget (pk, pv) (List.mem_cons_self _ t)
    have hstep : foldStep fva (seen, out) pk = .ok (pk :: seen, dictSet out pk pv) := by
      simp [foldStep, hp_nrev, hc, hcm, hg, dictGet_rev_none hnc]
    simp only [dictKeys, List.map_cons, List.nodup_cons] at hnd
    have hne_head : ∀ q ∈ t, q.1 ≠ pk := by
      intro q hq he
      exact hnd.1 (he ▸ List.mem_map_of_mem Prod.fst hq)
    obtain ⟨seen2, hfold⟩ :=
      @ih (pk :: seen) (out ++ [(pk, pv)])
        (fun q hq => hget q (List.mem_cons_of_mem _ hq))
        (fun q hq hm => by
          rcases List.mem_cons.mp hm with he | hm2
          · exact hne_head q hq he
          · exact hseen q (List.mem_cons_of_mem _ hq) hm2)
        (fun q hq => dictGet_append_single_none
          (hout q (List.mem_cons_of_mem _ hq)) (hne_head q hq))
        (fun q hq => hnrev q (List.mem_cons_of_mem _ hq)) hnd.2
    refine ⟨seen2, ?_⟩
    rw [dictKeys, List.map_cons, List.foldlM_cons, hstep, exceptBind_ok,
      dictSet_append_of_none (hout (pk, pv) (List.mem_cons_self _ t))]
    simp only [dictKeys] at hfold
    rw [hfold, List.append_assoc, List.singleton_append]

theorem nodup_append_singleton {l : List String} {a : String}
    (h : l.Nodup) (ha : a ∉ l) : (l ++ [a]).Nodup := by
  rw [List.nodup_append]
  refine ⟨h, List.nodup_singleton a, ?_⟩
  intro x hx hxa
  rw [List.mem_singleton] at hxa
  exact ha (hxa ▸ hx)

/-- Keys of the aggregator output stay duplicate-free and covered by the
seen-set, for any input table. -/
theorem c8_fold_nodup {fva : Dict Rat} :
    ∀ {keys : List String} {seen : List String} {out : Dict Rat}
      {acc2 : List String × Dict Rat},
      List.foldlM (foldStep fva) (seen, out) keys = .ok acc2 →
      (dictKeys out).Nodup → (∀ k ∈ dictKeys out, k ∈ seen) →
      (dictKeys acc2.2).Nodup := by
  intro keys
  induction keys with
  | nil =>
    intro seen out acc2 h hnd _
    rw [List.foldlM_nil, exceptPure_eq_ok] at h
    cases h
    exact hnd
  | cons k0 t ih =>
    intro seen out acc2 h hnd hsub
    rw [List.foldlM_cons] at h
    cases hstep : foldStep fva (seen, out) k0 with
    | error e => rw [hstep, exceptBind_error] at h; cases h
    | ok acc1 =>
      rw [hstep, exceptBind_ok] at h
      unfold foldStep at hstep
      generalize (if strContains k0 "_reverse" = true then stripReverse k0 else k0) = rxn
        at hstep
      by_cases hs : seen.contains rxn = true
      · rw [if_pos hs] at hstep
        cases hstep
        exact ih h hnd hsub
      · rw [if_neg hs] at hstep
        have hsnot : rxn ∉ seen := fun hm => hs (by simpa using hm)
        have hknot : rxn ∉ dictKeys out := fun hm => hsnot (hsub rxn hm)
        have hgo : dictGet out rxn = none := dictGet_none_of_not_mem_keys hknot
        have hnd2 : ∀ v2 : Rat, (dictKeys (dictSet out rxn v2)).Nodup := by
          intro v2
          rw [dictSet_append_of_none hgo, dictKeys, List.map_append]
          exact nodup_append_singleton hnd hknot
        have hsub2 : ∀ v2 : Rat, ∀ k ∈ dictKeys (dictSet out rxn v2), k ∈ rxn :: seen := by
          intro v2 k hk
          rw [dictSet_append_of_none hgo, dictKeys, List.map_append] at hk
          rcases List.mem_append.mp hk with hk1 | hk2
          · exact List.mem_cons_of_mem _ (hsub k hk1)
          · rw [List.map_singleton, List.mem_singleton] at hk2
            exact hk2 ▸ List.mem_cons_self _ _
        cases hg1 : dictGet fva rxn with
        | none => simp only [hg1] at hstep; cases hstep
        | some v =>
          simp only [hg1] at hstep
          cases hg2 : dictGet fva (rxn ++ "_reverse") with
          | none =>
            simp only [hg2] at hstep
            cases hstep
            exact ih h (hnd2 v) (hsub2 v)
          | some vrev =>
            simp only [hg2] at hstep
            cases hstep
            exact ih h (hnd2 (v + vrev)) (hsub2 (v + vrev))

/-- C8: the aggregator fold is the identity on every FVA result table with
duplicate-free keys none of which contains the `"_reverse"` suffix (so a
second application of the fold returns an already-folded table unchanged),
and every folded output has each identifier at most once among its keys,
whatever the input. -/
theorem C8_aggregator_fold_identity :
    (∀ fva : Dict Rat,
      (dictKeys fva).Nodup →
      (∀ p ∈ fva, strContains p.1 "_reverse" = false) →
      aggregatorFold fva = .ok fva) ∧
    (∀ fva out : Dict Rat, aggregatorFold fva = .ok out → (dictKeys out).Nodup) := by
  constructor
  · intro fva hnd hnc
    obtain ⟨seen2, hfold⟩ := @c8_fold_spec fva hnc fva [] []
      (fun p hp => dictGet_of_mem_nodup hnd hp)
      (fun p _ => List.not_mem_nil p.1)
      (fun p _ => rfl)
      hnc hnd
    unfold aggregatorFold
    rw [hfold, exceptBind_ok, List.nil_append]
  · intro fva out h
    unfold aggregatorFold at h
    cases hfold : List.foldlM (foldStep fva) ([], []) (dictKeys fva) with
    | error e => rw [hfold, exceptBind_error] at h; cases h
    | ok acc =>
      rw [hfold, exceptBind_ok] at h
      cases h
      exact c8_fold_nodup hfold (by simp [dictKeys]) (by simp [dictKeys])

/-- Witness for C8 on a concrete already-folded table. -/
theorem C8_witness :
    ((dictKeys [("R1", (3 : Rat)), ("R2", 5)]).Nodup ∧
      (∀ p ∈ [("R1", (3 : Rat)), ("R2", 5)], strContains p.1 "_reverse" = false)) ∧
    aggregatorFold [("R1", (3 : Rat)), ("R2", 5)] = .ok [("R1", 3), ("R2", 5)] ∧
    (dictKeys [("R1", (3 : Rat)), ("R2", 5)]).Nodup :=
  ⟨⟨by decide, by decide⟩,
    C8_aggregator_fold_identity.1 [("R1", 3), ("R2", 5)] (by decide) (by decide),
    C8_aggregator_fold_identity.2 [("R1", 3), ("R2", 5)] [("R1", 3), ("R2", 5)]
      (C8_aggregator_fold_identity.1 [("R1", 3), ("R2", 5)] (by decide) (by decide))⟩

/-! ## C5: the combined table is a left join, not an outer join -/

/-- C5 (counterexample): on a pFBA table with the single identifier `A` and
FVA tables with the single identifier `B`, the combined table has exactly
one row, keyed `A` with missing minimum/maximum — the identifier `B`,
although present in the FVA result set, has no row, so the join is not an
outer join and identifiers appearing only in the FVA result are dropped. -/
theorem C5_counterexample :
    get_pfba_fva_solution_table [("A", 1)] [("B", 0)] [("B", 2)] =
      [("A", ⟨1, none, none⟩)] ∧
    ("B", (0 : Rat)) ∈ ([("B", (0 : Rat))] : Dict Rat) ∧
    "B" ∉ (get_pfba_fva_solution_table [("A", 1)] [("B", 0)] [("B", 2)]).map Prod.fst := by
  refine ⟨rfl, by decide, by decide⟩

/-- C5 (amended): `get_pfba_fva_solution` builds the combined table as a
LEFT join of the pFBA flux column with the folded FVA min/max columns
(pandas `DataFrame.join` defaults to `how="left"`): one row per identifier
of the pFBA result, in pFBA order; each row carries the pFBA flux and the
FVA minimum/maximum found by identifier lookup, missing for reactions
outside the FVA subset; identifiers appearing only in the FVA tables are
dropped. -/
theorem C5_combined_table_left_join (pfba mn mx : Dict Rat) :
    ((get_pfba_fva_solution_table pfba mn mx).map Prod.fst = pfba.map Prod.fst) ∧
    (∀ k v, (k, v) ∈ pfba →
      (k, (⟨v, dictGet mn k, dictGet mx k⟩ : CombinedRow)) ∈
        get_pfba_fva_solution_table pfba mn mx) ∧
    (∀ k, k ∉ dictKeys mn → dictGet mn k = none) ∧
    (∀ k, k ∉ dictKeys mx → dictGet mx k = none) := by
  refine ⟨?_, ?_, fun k hk => dictGet_none_of_not_mem_keys hk,
    fun k hk => dictGet_none_of_not_mem_keys hk⟩
  · rw [get_pfba_fva_solution_table, dfJoinLeft, List.map_map]
    rfl
  · intro k v hm
    exact List.mem_map_of_mem _ hm

/-- Witness for C5 (amended) at a concrete pair of tables: the row for
`C`, which is outside the FVA subset, carries missing minimum/maximum. -/
theorem C5_witness :
    (("C", (3 : Rat)) ∈ ([("A", (1 : Rat)), ("C", 3)] : Dict Rat) ∧
      "C" ∉ dictKeys [("A", (0 : Rat))]) ∧
    ("C", (⟨3, dictGet [("A", (0 : Rat))] "C", dictGet [("A", (2 : Rat))] "C"⟩ :
        CombinedRow)) ∈
      get_pfba_fva_solution_table [("A", 1), ("C", 3)] [("A", 0)] [("A", 2)] ∧
    dictGet [("A", (0 : Rat))] "C" = none :=
  ⟨⟨by decide, by decide⟩,
    (C5_combined_table_left_join [("A", 1), ("C", 3)] [("A", 0)] [("A", 2)]).2.1
      "C" 3 (by decide),
    (C5_combined_table_left_join [("A", 1), ("C", 3)] [("A", 0)] [("A", 2)]).2.2.1
      "C" (by decide)⟩
